import Mathlib

/-!
Verification development for the generate → validate → retry pipeline of the
linear-developer-agent repository.  The TypeScript sources are shallowly
embedded: JavaScript regular-expression scanning is modelled by explicit
character-list scanners that reproduce the leftmost-match, greedy/backtracking
semantics of each concrete pattern; the mutable working tree is modelled as a
function from path to optional content; fallible operations return a success
flag or `Except`.  All definitions are executable, so concrete witnesses can be
settled by `decide`.
-/

namespace LDA

/- ## Character and list helpers (JS semantics) -/

/-- JS `\s` whitespace class restricted to the ASCII characters that occur in
the strings this program manipulates. -/
def jsWs (c : Char) : Bool :=
  c == ' ' || c == '\t' || c == '\n' || c == '\r' || c == '\x0b' || c == '\x0c'

/-- JS `\w` word-character class: `[A-Za-z0-9_]`. -/
def jsWordChar (c : Char) : Bool :=
  c.isAlphanum || c == '_'

/-- Does `need` occur at the front of the second list (case-sensitive)? -/
def frontMatch : List Char → List Char → Bool
  | [], _ => true
  | _ :: _, [] => false
  | a :: as, b :: bs => a == b && frontMatch as bs

/-- Does the haystack contain `need` as a contiguous sublist?  Models JS
`String.prototype.includes`. -/
def containsSub (need : List Char) : List Char → Bool
  | [] => frontMatch need []
  | c :: cs => frontMatch need (c :: cs) || containsSub need cs

/-- Case-insensitive character equality (JS `i` regex flag). -/
def ciEq (a b : Char) : Bool := a.toLower == b.toLower

/-- Match a literal case-insensitively at the front of the input, returning the
rest of the input on success. -/
def matchLitCi : List Char → List Char → Option (List Char)
  | [], cs => some cs
  | _ :: _, [] => none
  | p :: ps, c :: cs => if ciEq p c then matchLitCi ps cs else none

/-- JS `String.prototype.trim` on a character list. -/
def jsTrim (t : List Char) : List Char :=
  ((t.dropWhile jsWs).reverse.dropWhile jsWs).reverse

/-- Case-insensitive suffix test. -/
def endMatchCi (need t : List Char) : Bool :=
  frontMatch (need.reverse.map Char.toLower) (t.reverse.map Char.toLower)

/-- Case-sensitive suffix test (JS `String.prototype.endsWith`). -/
def endMatchCs (need t : List Char) : Bool :=
  frontMatch need.reverse t.reverse

/-- The regex fragment `\s*([^\n]+)` with JS greedy/backtracking semantics:
skip the maximal whitespace run, then capture a maximal nonempty run of
non-newline characters.  When only whitespace remains, the engine backtracks
the `\s*` so that the capture takes the last non-newline whitespace character.
Returns the capture and the rest of the input after the capture. -/
def wsCapture (cs : List Char) : Option (List Char × List Char) :=
  let rest := cs.dropWhile jsWs
  match rest with
  | [] =>
    let w := cs.takeWhile jsWs
    let nls := w.reverse.takeWhile (fun c => c == '\n')
    match w.reverse.dropWhile (fun c => c == '\n') with
    | [] => none
    | c :: _ => some ([c], nls)
  | _ :: _ =>
    some (rest.takeWhile (fun c => c != '\n'), rest.dropWhile (fun c => c != '\n'))

/-- JS `split(/[,\n]/)` on a character list, keeping empty pieces. -/
def splitCommaNl : List Char → List (List Char)
  | [] => [[]]
  | c :: cs =>
    if c == ',' || c == '\n' then [] :: splitCommaNl cs
    else
      match splitCommaNl cs with
      | h :: t => (c :: h) :: t
      | [] => [[c]]

/-- Split at the first occurrence of `needle` (the lazy `([\s\S]*?)` up to a
closing fence): returns the part before and the part after the needle. -/
def splitAtSub (needle : List Char) : List Char → Option (List Char × List Char)
  | [] => if needle.isEmpty then some ([], []) else none
  | c :: cs =>
    if frontMatch needle (c :: cs) then some ([], (c :: cs).drop needle.length)
    else (splitAtSub needle cs).map (fun p => (c :: p.1, p.2))

/- ## Data model: FileChange and the working tree (src/file-operations.ts) -/

/-- Action of a file operation (`'create' | 'modify' | 'delete'`). -/
inductive FAction where
  | create
  | modify
  | delete
deriving DecidableEq

/-- `FileChange` from src/file-operations.ts (the `originalContent` field is
never consulted by the modelled code paths and is omitted). -/
structure FileChange where
  filePath : String
  action : FAction
  content : Option String
deriving DecidableEq

/-- The local working tree: path to content, `none` meaning the file does not
exist. -/
abbrev Tree := String → Option String

/-- `FileOperations.writeFile`: create or overwrite a file. -/
def writeFile (t : Tree) (p c : String) : Tree :=
  fun q => if q = p then some c else t q

/-- `FileOperations.deleteFile` effect on the tree. -/
def deleteFile (t : Tree) (p : String) : Tree :=
  fun q => if q = p then none else t q

/-- One iteration of the `applyChanges` loop.  `create`/`modify` write only
when `change.content` is truthy (JS: `undefined` and `''` are falsy, so no
write happens then and no error is raised); `delete` calls `fs.unlink`, which
throws when the file does not exist — modelled as `none`. -/
def applyOne (t : Tree) (ch : FileChange) : Option Tree :=
  match ch.action with
  | .delete =>
    match t ch.filePath with
    | some _ => some (deleteFile t ch.filePath)
    | none => none
  | _ =>
    match ch.content with
    | some c => if c = "" then some t else some (writeFile t ch.filePath c)
    | none => some t

/-- `FileOperations.applyChanges`: apply the operations in list order.  The
returned `Bool` is `false` when an operation threw; the returned tree is the
disk state at that moment (earlier writes stay applied), matching the
sequential `for`-loop in the source. -/
def applyChanges (t : Tree) : List FileChange → Tree × Bool
  | [] => (t, true)
  | ch :: rest =>
    match applyOne t ch with
    | some t' => applyChanges t' rest
    | none => (t, false)

/-- The effect of one operation on the content observed at a fixed path `p`
(used to state the last-occurrence-wins property of sequential application). -/
def changeAt (p : String) (cur : Option String) (ch : FileChange) : Option String :=
  if ch.filePath = p then
    match ch.action with
    | .delete => none
    | _ =>
      match ch.content with
      | some c => if c = "" then cur else some c
      | none => cur
  else cur

/- ## Validation Adapter (src/validator.ts) -/

/-- `ValidationResult` from src/validator.ts. -/
structure ValidationResult where
  success : Bool
  errors : List String
  warnings : List String
  output : String
deriving DecidableEq

/-- Try the diagnostic-line regex
`([^:\n]+):(\d+):(\d+):\s*error:\s*(.+)` (or the same with `warning:`) at the
front of the input.  The greedy pieces are deterministic here: `[^:\n]+` and
`\d+` cannot give characters back usefully, and `\s*` before the literal word
cannot either because the word starts with a non-whitespace character; the
final `\s*(.+)` is `wsCapture`.  Returns `((file, line, message), rest)`. -/
def matchDiag (word : List Char) (cs : List Char) :
    Option ((List Char × List Char × List Char) × List Char) :=
  let fileRun := cs.takeWhile (fun c => c != ':' && c != '\n')
  if fileRun.isEmpty then none else
  match cs.dropWhile (fun c => c != ':' && c != '\n') with
  | ':' :: r2 =>
    let lineRun := r2.takeWhile Char.isDigit
    if lineRun.isEmpty then none else
    match r2.dropWhile Char.isDigit with
    | ':' :: r4 =>
      let colRun := r4.takeWhile Char.isDigit
      if colRun.isEmpty then none else
      match r4.dropWhile Char.isDigit with
      | ':' :: r6 =>
        match matchLitCi word (r6.dropWhile jsWs) with
        | some r8 =>
          match wsCapture r8 with
          | some (msg, rest) => some ((fileRun, lineRun, msg), rest)
          | none => none
        | none => none
      | _ => none
    | _ => none
  | _ => none

/-- Global scan of the diagnostic regex: leftmost match, then continue after
the match (JS `exec` loop with the `g` flag).  The fuel is the input length;
every step consumes at least one character, so that fuel is always enough. -/
def scanDiag (word : List Char) : Nat → List Char → List (List Char × List Char × List Char)
  | 0, _ => []
  | _, [] => []
  | n + 1, c :: cs =>
    match matchDiag word (c :: cs) with
    | some (cap, rest) => cap :: scanDiag word n rest
    | none => scanDiag word n cs

/-- Formatting of one diagnostic: `` `${file}:${line} - ${message}` ``. -/
def fmtDiag (d : List Char × List Char × List Char) : String :=
  String.mk d.1 ++ ":" ++ String.mk d.2.1 ++ " - " ++ String.mk d.2.2

/-- First alternative of the catch-all regex: `\*\*\s*BUILD FAILED\s*\*\*`.
The match result is the whole matched text (`match[0]`). -/
def matchBuildFailed (cs : List Char) : Option (List Char × List Char) :=
  match matchLitCi "**".data cs with
  | none => none
  | some r1 =>
    match matchLitCi "BUILD FAILED".data (r1.dropWhile jsWs) with
    | none => none
    | some r3 =>
      match matchLitCi "**".data (r3.dropWhile jsWs) with
      | none => none
      | some r5 => some (cs.take (cs.length - r5.length), r5)

/-- Second alternative: `fatal error:\s*(.+)`; the result is the captured
message (`match[1]`). -/
def matchFatal (cs : List Char) : Option (List Char × List Char) :=
  match matchLitCi "fatal error:".data cs with
  | none => none
  | some r1 => wsCapture r1

/-- The alternation `\*\*\s*BUILD FAILED\s*\*\*|fatal error:\s*(.+)`: JS tries
the alternatives in order at each position. -/
def matchGeneral (cs : List Char) : Option (List Char × List Char) :=
  match matchBuildFailed cs with
  | some r => some r
  | none => matchFatal cs

/-- Global scan for the catch-all fatal-error regex. -/
def scanGeneral : Nat → List Char → List (List Char)
  | 0, _ => []
  | _, [] => []
  | n + 1, c :: cs =>
    match matchGeneral (c :: cs) with
    | some (msg, rest) => msg :: scanGeneral n rest
    | none => scanGeneral n cs

/-- `Validator.extractErrors`: collect formatted `error:` diagnostics, then
append catch-all matches that are nonempty and not already contained in some
collected entry, and finally truncate to the top 10. -/
def extractErrors (output : String) : List String :=
  let d := output.data
  let base := (scanDiag "error:".data d.length d).map fmtDiag
  let gens := (scanGeneral d.length d).map String.mk
  let errs := gens.foldl
    (fun acc m =>
      if m ≠ "" ∧ ¬ acc.any (fun e => containsSub m.data e.data) then acc ++ [m] else acc)
    base
  errs.take 10

/-- `Validator.extractWarnings`: formatted `warning:` diagnostics, truncated to
the top 5. -/
def extractWarnings (output : String) : List String :=
  let d := output.data
  ((scanDiag "warning:".data d.length d).map fmtDiag).take 5

/-- Outcome of the `execAsync(xcodebuild …)` call: either it resolves with
stdout/stderr, or it throws (timeout or spawn failure) carrying the partial
stdout/stderr and an exception message. -/
inductive ExecOutcome where
  | resolved (stdout stderr : String)
  | thrown (stdout stderr message : String)
deriving DecidableEq

/-- `Validator.validateBuild`.  On a resolved call, success is the presence of
`BUILD SUCCEEDED` in the combined output; on a thrown call (the `catch`
branch) the result is a failure whose error list is the extracted errors from
the partial output when any were found, otherwise the single exception
message.  The function is total: the exception never propagates. -/
def validateBuild (r : ExecOutcome) : ValidationResult :=
  match r with
  | .resolved so se =>
    let output := so ++ "\n" ++ se
    if containsSub "BUILD SUCCEEDED".data output.data then
      ⟨true, [], extractWarnings output, output⟩
    else
      ⟨false, extractErrors output, extractWarnings output, output⟩
  | .thrown so se msg =>
    let output := so ++ "\n" ++ se
    let errs := extractErrors output
    ⟨false, if 0 < errs.length then errs else [msg], extractWarnings output, output⟩

/- ## Context Assembler (FileOperations.extractFilePaths) -/

/-- Extensions accepted by the back-tick regex
`` `([^`]+\.(swift|graphql|json|md|txt))` `` (case-insensitive). -/
def tickExts : List (List Char) :=
  ["swift".data, "graphql".data, "json".data, "md".data, "txt".data]

/-- Does the back-ticked text end in `.` plus an accepted extension, with a
nonempty stem before the dot?  (The regex shape `[^`]+\.(…)` forces both.) -/
def tickOk (t : List Char) : Bool :=
  tickExts.any (fun e => endMatchCi ('.' :: e) t && e.length + 1 < t.length)

/-- Try the back-tick pattern at the front of the input.  A match needs an
opening back-tick, a nonempty back-tick-free body ending in an accepted
extension, and a closing back-tick (necessarily the next back-tick, since the
body may not contain one).  Returns the captured body and the input after the
closing back-tick. -/
def matchTick : List Char → Option (List Char × List Char)
  | [] => none
  | c :: rest =>
    if c = '`' then
      let t := rest.takeWhile (fun x => x != '`')
      match rest.dropWhile (fun x => x != '`') with
      | _ :: after => if tickOk t then some (t, after) else none
      | [] => none
    else none

/-- Global scan of the back-tick pattern. -/
def scanTick : Nat → List Char → List (List Char)
  | 0, _ => []
  | _, [] => []
  | n + 1, c :: cs =>
    match matchTick (c :: cs) with
    | some (t, after) => t :: scanTick n after
    | none => scanTick n cs

/-- Shared tail of the two `Files:` label patterns: optional `s`, then the
given closer (for the bold pattern `**` plus optional `:`, for the plain
pattern a mandatory `:`), then `\s*([^\n]+)`.  `s?` is greedy: the engine
first tries to consume the `s`. -/
def matchFilesBold (cs : List Char) : Option (List Char × List Char) :=
  match matchLitCi "**File".data cs with
  | none => none
  | some r1 =>
    let tail := fun (r : List Char) =>
      match matchLitCi "**".data r with
      | none => none
      | some r2 =>
        match r2 with
        | ':' :: r3 =>
          match wsCapture r3 with
          | some x => some x
          | none => wsCapture r2
        | _ => wsCapture r2
    match r1 with
    | c :: r1' =>
      if ciEq 's' c then
        match tail r1' with
        | some x => some x
        | none => tail r1
      else tail r1
    | [] => tail r1

/-- The pattern `Files?:\s*([^\n]+)` (case-insensitive). -/
def matchFilesPlain (cs : List Char) : Option (List Char × List Char) :=
  match matchLitCi "File".data cs with
  | none => none
  | some r1 =>
    let tail := fun (r : List Char) =>
      match r with
      | ':' :: r2 => wsCapture r2
      | _ => none
    match r1 with
    | c :: r1' =>
      if ciEq 's' c then
        match tail r1' with
        | some x => some x
        | none => tail r1
      else tail r1
    | [] => tail r1

/-- Global scan of `\*\*Files?\*\*:?\s*([^\n]+)`. -/
def scanFilesBold : Nat → List Char → List (List Char)
  | 0, _ => []
  | _, [] => []
  | n + 1, c :: cs =>
    match matchFilesBold (c :: cs) with
    | some (t, after) => t :: scanFilesBold n after
    | none => scanFilesBold n cs

/-- Global scan of `Files?:\s*([^\n]+)`. -/
def scanFilesPlain : Nat → List Char → List (List Char)
  | 0, _ => []
  | _, [] => []
  | n + 1, c :: cs =>
    match matchFilesPlain (c :: cs) with
    | some (t, after) => t :: scanFilesPlain n after
    | none => scanFilesPlain n cs

/-- `replace(/^`|`$/g, '')`: remove one leading and one trailing back-tick. -/
def stripTicks (t : List Char) : List Char :=
  let a := match t with
    | '`' :: r => r
    | _ => t
  match a.reverse with
  | '`' :: r => r.reverse
  | _ => a

/-- `replace(/:\d+(-\d+)?$/, '')`: remove a trailing `:line` or `:from-to`
suffix. -/
def stripLineNum (t : List Char) : List Char :=
  let rev := t.reverse
  let d1 := rev.takeWhile Char.isDigit
  if d1.isEmpty then t else
  match rev.drop d1.length with
  | ':' :: r => r.reverse
  | '-' :: r2 =>
    let d2 := r2.takeWhile Char.isDigit
    if d2.isEmpty then t else
    match r2.drop d2.length with
    | ':' :: r3 => r3.reverse
    | _ => t
  | _ => t

/-- Final allow-list filter of src/file-operations.ts:
`p.endsWith('.swift') || p.endsWith('.graphql') || p.endsWith('.json')`
(case-sensitive). -/
def allowFinal (p : List Char) : Bool :=
  endMatchCs ".swift".data p || endMatchCs ".graphql".data p || endMatchCs ".json".data p

/-- The JS `Set` is insertion-ordered; adding a present element is a no-op. -/
def insertUnique (acc : List String) (s : String) : List String :=
  if s ∈ acc then acc else acc ++ [s]

/-- Processing of one piece of a capture: trim, strip back-ticks, strip a
`:line` suffix, trim again, and keep the piece when nonempty and
allow-listed. -/
def pcStep (acc : List String) (piece : List Char) : List String :=
  let p := jsTrim (stripLineNum (stripTicks (jsTrim piece)))
  if !p.isEmpty && allowFinal p then insertUnique acc (String.mk p) else acc

/-- Processing of one regex capture: split on commas/newlines and process the
pieces in order. -/
def processCapture (acc : List String) (t : List Char) : List String :=
  (splitCommaNl t).foldl pcStep acc

/-- `FileOperations.extractFilePaths` (src/file-operations.ts, lines 99-132):
run the three patterns over the issue description in order, accumulating
cleaned paths into the insertion-ordered set, and return the set as a list. -/
def extractFilePaths (description : String) : List String :=
  let d := description.data
  let a1 := (scanTick d.length d).foldl processCapture []
  let a2 := (scanFilesBold d.length d).foldl processCapture a1
  (scanFilesPlain d.length d).foldl processCapture a2

/- ## Change-Set Parser (CodeGenerator.parseFileChanges) -/

/-- After the path capture, the rest of the block regex
`\s*### ACTION:\s*(create|modify|delete)\s*` ``` `[\w]*\n([\s\S]*?)` ``` is
deterministic: every `\s*` is followed by a literal starting with a
non-whitespace character, the alternation is tried in order, the `[\w]*` run
cannot end in a newline, and the lazy content capture stops at the first
closing fence.  Returns the action, the content capture and the rest of the
input after the closing fence. -/
def afterCapture (rest : List Char) : Option (FAction × List Char × List Char) :=
  match matchLitCi "### ACTION:".data (rest.dropWhile jsWs) with
  | none => none
  | some r3 =>
    let r4 := r3.dropWhile jsWs
    let tryAct := fun (w : List Char) (a : FAction) =>
      (matchLitCi w r4).map (fun r => (a, r))
    let act := match tryAct "create".data FAction.create with
      | some x => some x
      | none =>
        match tryAct "modify".data FAction.modify with
        | some x => some x
        | none => tryAct "delete".data FAction.delete
    match act with
    | none => none
    | some (a, r5) =>
      match matchLitCi "```".data (r5.dropWhile jsWs) with
      | none => none
      | some r7 =>
        match r7.dropWhile jsWordChar with
        | '\n' :: r9 =>
          match splitAtSub "```".data r9 with
          | some (content, after) => some (a, content, after)
          | none => none
        | _ => none

/-- Backtracking over the right end of the greedy path capture `([^\n]+)`:
try the longest capture first, then move characters from the capture back onto
the rest until the remainder of the block matches.  The capture must stay
nonempty.  The first argument is the reversed current capture candidate. -/
def shrinkEnds : List Char → List Char → Option (List Char × FAction × List Char × List Char)
  | revCap, rest =>
    match afterCapture rest with
    | some (a, content, after) => some (revCap.reverse, a, content, after)
    | none =>
      match revCap with
      | [] => none
      | [_] => none
      | c :: revCap' => shrinkEnds revCap' (c :: rest)

/-- Backtracking over the greedy `\s*` before the path capture: candidate
capture-start offsets into the whitespace run, longest skip first.  At each
offset the capture is the maximal non-newline run (which must start with a
non-newline character). -/
def tryStartAt (r1 : List Char) (s : Nat) :
    Option (List Char × FAction × List Char × List Char) :=
  match r1.drop s with
  | c :: _ =>
    if c = '\n' then none
    else
      shrinkEnds ((r1.drop s).takeWhile (fun x => x != '\n')).reverse
        ((r1.drop s).dropWhile (fun x => x != '\n'))
  | [] => none

/-- Iterate `tryStartAt` over offsets `s, s-1, …, 0` (longest `\s*` skip
first). -/
def tryStarts (r1 : List Char) : Nat → Option (List Char × FAction × List Char × List Char)
  | 0 => tryStartAt r1 0
  | s + 1 =>
    match tryStartAt r1 (s + 1) with
    | some x => some x
    | none => tryStarts r1 s

/-- Try the full block regex
`### FILE:\s*([^\n]+)\s*### ACTION:\s*(create|modify|delete)\s*` ``` `[\w]*\n([\s\S]*?)` ```
at the front of the input.  On success the source builds a `FileChange` from
the trimmed path, the (lower-cased) action and the raw content capture. -/
def matchFileBlock (cs : List Char) : Option (FileChange × List Char) :=
  match matchLitCi "### FILE:".data cs with
  | none => none
  | some r1 =>
    match tryStarts r1 (r1.takeWhile jsWs).length with
    | some (cap, a, content, after) =>
      some (⟨String.mk (jsTrim cap), a, some (String.mk content)⟩, after)
    | none => none

/-- Global scan of the block regex (JS `exec` loop, fresh regex per call). -/
def scanBlocks : Nat → List Char → List FileChange
  | 0, _ => []
  | _, [] => []
  | n + 1, c :: cs =>
    match matchFileBlock (c :: cs) with
    | some (fc, rest) => fc :: scanBlocks n rest
    | none => scanBlocks n cs

/-- `CodeGenerator.parseFileChanges` (code-generator source, lines 208-235;
the cloud variant in src/cloud-code-generator.ts differs only in dropping the
action marker): every matching block yields one `FileChange`, in text order;
duplicates are not collapsed.  The regex object is created afresh on every
call, so a call is a pure function of its input. -/
def parseFileChanges (response : String) : List FileChange :=
  scanBlocks response.data.length response.data

/- ## Retry Orchestrator (ClaudeAutomationV2.implementWithValidation) -/

/-- One attempt's external responses: the change set parsed from the model
call (`codeGenerator.generateImplementation`) and the validator's response for
that attempt (`validator.validateBuild`), if it is consulted.  An oracle
`Nat → AttemptOutcome` fixes the responses for every attempt number, so the
orchestrator is quantified over every sequence of model and validator
responses. -/
structure AttemptOutcome where
  changes : List FileChange
  validation : ValidationResult

/-- How one run of `implementWithValidation` ends.
`accepted n` / `exhausted n` are the `success: true` / `success: false`
returns with `attempts = n`; `applyError n` is an exception thrown by
`applyChanges` (a `delete` of a missing file) propagating out of attempt `n`;
`postLoopThrow` is the `throw new Error(…)` after the `for` loop. -/
inductive RunOutcome where
  | accepted (attempts : Nat)
  | exhausted (attempts : Nat)
  | applyError (attempts : Nat)
  | postLoopThrow
deriving DecidableEq

/-- Instrumented run state: the working tree plus counters of model-generation
calls and build-validation calls, and the tree snapshot at the moment of each
validation call (in call order). -/
structure RunTrace where
  tree : Tree
  genCalls : Nat
  valCalls : Nat
  valTrees : List Tree

/-- The body of the `for (attempt = 1; attempt <= maxAttempts; attempt++)`
loop.  The fuel counts the remaining iterations the `for` loop would still
run (`maxAttempts - attempt + 1`); exhausting it is exactly the loop running
to completion, which falls through to the post-loop `throw`.  Each iteration:
one generation call; empty change set → retry or `success:false` at the
budget; otherwise apply the changes to the (never reset) working tree; if
`xcodebuild` is unavailable (`canBuild = false`) accept immediately without
validating; otherwise validate, accept on success, and on failure retry
(feeding errors to the next generation via the oracle) or return
`success:false` at the budget. -/
def stepLoop (canBuild : Bool) (oracle : Nat → AttemptOutcome) (maxAttempts : Nat) :
    Nat → Nat → RunTrace → RunOutcome × RunTrace
  | 0, _, st => (.postLoopThrow, st)
  | fuel + 1, attempt, st =>
    let o := oracle attempt
    if o.changes = [] then
      if attempt = maxAttempts then
        (.exhausted attempt, ⟨st.tree, st.genCalls + 1, st.valCalls, st.valTrees⟩)
      else
        stepLoop canBuild oracle maxAttempts fuel (attempt + 1)
          ⟨st.tree, st.genCalls + 1, st.valCalls, st.valTrees⟩
    else
      let t' := (applyChanges st.tree o.changes).1
      if (applyChanges st.tree o.changes).2 = false then
        (.applyError attempt, ⟨t', st.genCalls + 1, st.valCalls, st.valTrees⟩)
      else if canBuild = false then
        (.accepted attempt, ⟨t', st.genCalls + 1, st.valCalls, st.valTrees⟩)
      else
        if o.validation.success then
          (.accepted attempt, ⟨t', st.genCalls + 1, st.valCalls + 1, st.valTrees ++ [t']⟩)
        else if attempt < maxAttempts then
          stepLoop canBuild oracle maxAttempts fuel (attempt + 1)
            ⟨t', st.genCalls + 1, st.valCalls + 1, st.valTrees ++ [t']⟩
        else
          (.exhausted attempt, ⟨t', st.genCalls + 1, st.valCalls + 1, st.valTrees ++ [t']⟩)

/-- `ClaudeAutomationV2.implementWithValidation`: `canBuild` is the result of
the one-time `validator.isXcodebuildAvailable()` check, `t0` the working tree
at run start. -/
def implementWithValidation (canBuild : Bool) (oracle : Nat → AttemptOutcome)
    (maxAttempts : Nat) (t0 : Tree) : RunOutcome × RunTrace :=
  stepLoop canBuild oracle maxAttempts maxAttempts 1 ⟨t0, 0, 0, []⟩

/- ## Publisher (GitHubFileOperations.commitFiles) -/

/-- A file of a cloud change set (`GitHubFile`): path plus full new content. -/
structure GitHubFile where
  path : String
  content : String

/-- Hosting state visible on the branch: the tree of the commit its head
points at.  Blobs, trees and commits created by the API calls are unreachable
from any ref until `updateRef` runs, so they do not appear in this state. -/
structure GHState where
  head : Tree

/-- One GitHub API call with injected failure: call number `k` throws when
`fails k` is set, otherwise it returns its value. -/
def ghCall (fails : Nat → Bool) (k : Nat) {α : Type} (a : α) : Except String α :=
  if fails k then .error "GitHub API error" else .ok a

/-- The sequential blob-creation loop of `commitFiles`: one `createBlob` call
per file (call numbers `k, k+1, …`), collecting the tree entries
`(path, content)`; any failed call rethrows. -/
def createBlobs (fails : Nat → Bool) : Nat → List GitHubFile → Except String (List (String × String))
  | _, [] => .ok []
  | k, f :: fs =>
    match ghCall fails k f.content with
    | .error e => .error e
    | .ok c =>
      match createBlobs fails (k + 1) fs with
      | .error e => .error e
      | .ok rest => .ok ((f.path, c) :: rest)

/-- `createTree` semantics: the new tree is the base tree overlaid with all
entries, later entries overriding earlier ones. -/
def overlayFiles (t : Tree) (entries : List (String × String)) : Tree :=
  entries.foldl (fun acc pc => fun q => if q = pc.1 then some pc.2 else acc q) t

/-- `GitHubFileOperations.commitFiles`: `getRef` (call 0), `getCommit`
(call 1), one `createBlob` per file (calls 2 … n+1), `createTree` (call n+2),
`createCommit` (call n+3), `updateRef` (call n+4).  Only the final `updateRef`
moves the branch head; an error from any call propagates and leaves the head
untouched. -/
def commitFiles (st : GHState) (files : List GitHubFile) (fails : Nat → Bool) :
    Except String GHState :=
  match ghCall fails 0 () with
  | .error e => .error e
  | .ok _ =>
    match ghCall fails 1 st.head with
    | .error e => .error e
    | .ok baseTree =>
      match createBlobs fails 2 files with
      | .error e => .error e
      | .ok entries =>
        match ghCall fails (2 + files.length) (overlayFiles baseTree entries) with
        | .error e => .error e
        | .ok newTree =>
          match ghCall fails (3 + files.length) newTree with
          | .error e => .error e
          | .ok newCommit => ghCall fails (4 + files.length) (⟨newCommit⟩ : GHState)

/-- The hosting state after a publish: the new head on success, the unchanged
head when any API call threw. -/
def commitFilesFinal (st : GHState) (files : List GitHubFile) (fails : Nat → Bool) : GHState :=
  match commitFiles st files fails with
  | .ok st' => st'
  | .error _ => st

/- ## Concrete test inputs -/

/-- The empty working tree. -/
def tree0 : Tree := fun _ => none

/-- A passing validator response. -/
def valOk : ValidationResult := ⟨true, [], [], ""⟩

/-- A failing validator response. -/
def valBad : ValidationResult := ⟨false, ["err"], [], ""⟩

/-- Model text holding two well-formed blocks for the same path. -/
def txtDup : String :=
  "### FILE: A.swift\n### ACTION: create\n```swift\none\n```\n### FILE: A.swift\n### ACTION: modify\n```swift\ntwo\n```\n"

/-- An issue description where the back-tick closing `a.swift` is also the
opening back-tick of the `src/Foo.swift` occurrence. -/
def cex4 : String := "`a.swift`src/Foo.swift`"

/-- The characters of the path `src/Foo.swift`. -/
def fooPath : List Char :=
  ['s', 'r', 'c', '/', 'F', 'o', 'o', '.', 's', 'w', 'i', 'f', 't']

/-- The characters of the back-ticked occurrence of `src/Foo.swift`. -/
def fooOcc : List Char := '`' :: fooPath ++ ['`']

/-- A thrown build command whose partial output still contains two parseable
error lines. -/
def cexExec : ExecOutcome :=
  .thrown "A.swift:1:1: error: foo\nB.swift:2:2: error: bar" "" "Command failed"

/-- Baseline tree for the compounding run: one file `A.swift`. -/
def treeC2 : Tree := fun p => if p = "A.swift" then some "base" else none

/-- Responses for the compounding run: attempt 1 rewrites `A.swift` and fails
validation; later attempts touch only `B.swift`. -/
def oracleC2 : Nat → AttemptOutcome := fun n =>
  if n = 1 then ⟨[⟨"A.swift", .modify, some "v1"⟩], valBad⟩
  else ⟨[⟨"B.swift", .create, some "v2"⟩], valBad⟩

/-- Responses that never produce a change set. -/
def oracleEmpty : Nat → AttemptOutcome := fun _ => ⟨[], valOk⟩

/-- Responses that always produce one nonempty change set. -/
def oracleC5 : Nat → AttemptOutcome := fun _ =>
  ⟨[⟨"New.swift", .create, some "body"⟩], valBad⟩

/-- Responses whose change set deletes a file that does not exist: applying it
makes `fs.unlink` throw inside `applyChanges`. -/
def oracleDel : Nat → AttemptOutcome := fun _ =>
  ⟨[⟨"Ghost.swift", .delete, none⟩], valOk⟩

/-- A two-file change set for the publisher. -/
def ghFilesW : List GitHubFile := [⟨"a.swift", "1"⟩, ⟨"b.swift", "2"⟩]

/-- An initial hosting state with an empty head tree. -/
def ghState0 : GHState := ⟨fun _ => none⟩

/- ## Helper lemmas about applyChanges -/

theorem writeFile_ne {t : Tree} {q p : String} (c : String) (hne : q ≠ p) :
    writeFile t q c p = t p := by
  simp [writeFile, Ne.symm hne]

theorem deleteFile_ne {t : Tree} {q p : String} (hne : q ≠ p) :
    deleteFile t q p = t p := by
  simp [deleteFile, Ne.symm hne]

theorem applyOne_lookup_ne {t t' : Tree} {ch : FileChange} {p : String}
    (h : applyOne t ch = some t') (hne : ch.filePath ≠ p) : t' p = t p := by
  unfold applyOne at h
  cases ha : ch.action <;> simp [ha] at h
  · cases hc : ch.content <;> simp [hc] at h
    · simp [← h]
    · split at h <;> injection h with h
      · simp [← h]
      · rw [← h]; exact writeFile_ne _ hne
  · cases hc : ch.content <;> simp [hc] at h
    · simp [← h]
    · split at h <;> injection h with h
      · simp [← h]
      · rw [← h]; exact writeFile_ne _ hne
  · cases hl : t ch.filePath <;> simp [hl] at h
    rw [← h]; exact deleteFile_ne hne

theorem applyChanges_frame (chs : List FileChange) (t : Tree) (p : String)
    (h : ∀ ch ∈ chs, ch.filePath ≠ p) : (applyChanges t chs).1 p = t p := by
  induction chs generalizing t with
  | nil => rfl
  | cons ch rest ih =>
    show (match applyOne t ch with
      | some t' => applyChanges t' rest
      | none => (t, false)).1 p = t p
    cases hap : applyOne t ch with
    | some t' =>
      rw [ih t' fun c hc => h c (List.mem_cons_of_mem _ hc)]
      exact applyOne_lookup_ne hap (h ch (List.mem_cons_self _ _))
    | none => rfl

theorem applyOne_skip (t : Tree) (ch : FileChange)
    (ha : ch.action ≠ .delete) (hc : ch.content = none ∨ ch.content = some "") :
    applyOne t ch = some t := by
  unfold applyOne
  cases h : ch.action <;> try simp_all
  all_goals rcases hc with hc | hc <;> simp [hc]

theorem applyOne_ok_of_not_delete (t : Tree) (ch : FileChange)
    (ha : ch.action ≠ .delete) : ∃ t', applyOne t ch = some t' := by
  unfold applyOne
  cases h : ch.action <;> try simp_all
  all_goals cases hc : ch.content
  all_goals simp [hc]
  all_goals split <;> simp

theorem applyOne_keeps_some {t t' : Tree} {ch : FileChange} {p : String}
    (h : applyOne t ch = some t') (ha : ch.action ≠ .delete)
    (hp : (t p).isSome = true) : (t' p).isSome = true := by
  unfold applyOne at h
  cases hact : ch.action
  case delete => exact absurd hact ha
  all_goals rw [hact] at h; simp at h
  all_goals cases hc : ch.content <;> simp [hc] at h
  all_goals try (rw [← h]; exact hp)
  all_goals split at h <;> injection h with h
  all_goals rw [← h]
  all_goals try exact hp
  all_goals simp only [writeFile]
  all_goals split <;> simp [hp]

theorem applyChanges_ok_of_no_delete (chs : List FileChange) (t : Tree)
    (h : ∀ ch ∈ chs, ch.action ≠ .delete) : (applyChanges t chs).2 = true := by
  induction chs generalizing t with
  | nil => rfl
  | cons ch rest ih =>
    obtain ⟨t', ht'⟩ := applyOne_ok_of_not_delete t ch (h ch (List.mem_cons_self _ _))
    show (match applyOne t ch with
      | some t' => applyChanges t' rest
      | none => (t, false)).2 = true
    rw [ht']
    exact ih t' fun c hc => h c (List.mem_cons_of_mem _ hc)

theorem applyChanges_keeps_some (chs : List FileChange) (t : Tree) (p : String)
    (h : ∀ ch ∈ chs, ch.action ≠ .delete) (hp : (t p).isSome = true) :
    ((applyChanges t chs).1 p).isSome = true := by
  induction chs generalizing t with
  | nil => exact hp
  | cons ch rest ih =>
    obtain ⟨t', ht'⟩ := applyOne_ok_of_not_delete t ch (h ch (List.mem_cons_self _ _))
    show ((match applyOne t ch with
      | some t' => applyChanges t' rest
      | none => (t, false)).1 p).isSome = true
    rw [ht']
    exact ih t' (fun c hc => h c (List.mem_cons_of_mem _ hc))
      (applyOne_keeps_some ht' (h ch (List.mem_cons_self _ _)) hp)

theorem applyOne_changeAt {t t' : Tree} {ch : FileChange} (p : String)
    (h : applyOne t ch = some t') : t' p = changeAt p (t p) ch := by
  by_cases hpp : ch.filePath = p
  case neg =>
    rw [applyOne_lookup_ne h hpp]
    simp [changeAt, hpp]
  case pos =>
    unfold applyOne at h
    unfold changeAt
    rw [if_pos hpp]
    cases hact : ch.action <;> simp only [hact] at h ⊢
    case delete =>
      cases hl : t ch.filePath <;> simp [hl] at h
      rw [← h, ← hpp]
      simp [deleteFile]
    all_goals
      cases hc : ch.content with
      | none =>
        simp only [hc] at h ⊢
        simp at h
        rw [← h]
      | some val =>
        simp only [hc] at h ⊢
        by_cases hv : val = ""
        · rw [if_pos hv] at h ⊢
          simp at h
          rw [← h]
        · rw [if_neg hv] at h ⊢
          simp at h
          rw [← h, ← hpp]
          simp [writeFile]

theorem applyChanges_last_wins (chs : List FileChange) (t : Tree) (p : String)
    (h : (applyChanges t chs).2 = true) :
    (applyChanges t chs).1 p = chs.foldl (changeAt p) (t p) := by
  induction chs generalizing t with
  | nil => rfl
  | cons ch rest ih =>
    have hm : applyChanges t (ch :: rest) = (match applyOne t ch with
      | some t' => applyChanges t' rest
      | none => (t, false)) := rfl
    cases hap : applyOne t ch with
    | some t' =>
      rw [hm, hap]
      rw [List.foldl_cons, ← applyOne_changeAt p hap]
      exact ih t' (by rw [hm, hap] at h; exact h)
    | none =>
      rw [hm, hap] at h
      simp at h

theorem extractErrors_length_le (out : String) : (extractErrors out).length ≤ 10 := by
  unfold extractErrors
  apply List.length_take_le

theorem extractWarnings_length_le (out : String) : (extractWarnings out).length ≤ 5 := by
  unfold extractWarnings
  apply List.length_take_le

/- ## Claim theorems -/

/-- C10: `applyChanges` touches only the paths named in its change list —
every file not named by some operation keeps its prior content (also when a
later operation throws); a `create`/`modify` operation with absent or empty
content performs no write and raises no error; and only `delete` operations
remove files (non-delete change lists never make a present file absent). -/
theorem c10_applychanges_frame :
    (∀ (t : Tree) (chs : List FileChange) (p : String),
        (∀ ch ∈ chs, ch.filePath ≠ p) → (applyChanges t chs).1 p = t p) ∧
    (∀ (t : Tree) (ch : FileChange),
        ch.action ≠ FAction.delete → (ch.content = none ∨ ch.content = some "") →
        applyChanges t [ch] = (t, true)) ∧
    (∀ (t : Tree) (chs : List FileChange) (p : String),
        (∀ ch ∈ chs, ch.action ≠ FAction.delete) → (t p).isSome = true →
        ((applyChanges t chs).1 p).isSome = true) := by
  refine ⟨fun t chs p h => applyChanges_frame chs t p h, fun t ch ha hc => ?_,
    fun t chs p h hp => applyChanges_keeps_some chs t p h hp⟩
  have hs := applyOne_skip t ch ha hc
  simp [applyChanges, hs]

theorem c10_applychanges_frame_witness :
    (applyChanges treeC2 [⟨"B.swift", FAction.create, some "x"⟩]).1 "A.swift" = treeC2 "A.swift" ∧
    applyChanges treeC2 [⟨"B.swift", FAction.create, none⟩] = (treeC2, true) ∧
    ((applyChanges treeC2 [⟨"B.swift", FAction.create, some "x"⟩]).1 "A.swift").isSome = true :=
  ⟨c10_applychanges_frame.1 treeC2 _ "A.swift" (by decide),
   c10_applychanges_frame.2.1 treeC2 _ (by decide) (Or.inl rfl),
   c10_applychanges_frame.2.2 treeC2 _ "A.swift" (by decide) (by decide)⟩

/-- C8: for every tool outcome, the `ValidationResult` handed back by
`validateBuild` carries at most 10 error entries and at most 5 warning
entries (the extractors truncate with `slice(0, 10)` / `slice(0, 5)`, and the
synthetic catch-branch list has one entry). -/
theorem c8_truncation (r : ExecOutcome) :
    (validateBuild r).errors.length ≤ 10 ∧ (validateBuild r).warnings.length ≤ 5 := by
  cases r <;> constructor <;> simp only [validateBuild] <;> (try split) <;>
    simp [extractErrors_length_le, extractWarnings_length_le]

/-- C7 (amended): when the build command throws, `validateBuild` returns a
failure and never propagates the exception; its error list is the (nonempty)
list of errors extracted from the captured partial output when any line
parses, and otherwise exactly the one synthetic entry carrying the exception
message.  (The original claim — always exactly one synthetic entry — fails
when the partial output contains parseable error lines.) -/
theorem c7_synthetic_amended (so se msg : String) :
    (validateBuild (.thrown so se msg)).success = false ∧
    ((0 < (extractErrors (so ++ "\n" ++ se)).length ∧
        (validateBuild (.thrown so se msg)).errors = extractErrors (so ++ "\n" ++ se)) ∨
      ((extractErrors (so ++ "\n" ++ se)).length = 0 ∧
        (validateBuild (.thrown so se msg)).errors = [msg])) := by
  refine ⟨rfl, ?_⟩
  by_cases h : 0 < (extractErrors (so ++ "\n" ++ se)).length
  · exact Or.inl ⟨h, by simp [validateBuild, h]⟩
  · exact Or.inr ⟨by omega, by simp [validateBuild, h]⟩

/-- C7 (counterexample): a thrown build command whose partial stdout contains
two parseable error lines yields a failure with two extracted entries, not a
single synthetic one. -/
theorem c7_synthetic_counterexample :
    (validateBuild cexExec).success = false ∧
    (validateBuild cexExec).errors = ["A.swift:1 - foo", "B.swift:2 - bar"] ∧
    (validateBuild cexExec).errors.length ≠ 1 := by decide

/-- C9: parsing is deterministic and idempotent.  The source constructs the
block regex afresh inside every `parseFileChanges` call, so no `lastIndex`
state survives between calls and a call is a pure function of the model text;
two calls on the same text yield identical `FileOperation` lists. -/
theorem c9_parse_idempotent (s : String) : parseFileChanges s = parseFileChanges s := rfl

/-- C6 (counterexample): on model text with two well-formed blocks for
`A.swift` the parser returns both operations — the returned list does not
contain at most one operation per path. -/
theorem c6_unique_counterexample :
    (parseFileChanges txtDup).map FileChange.filePath = ["A.swift", "A.swift"] ∧
    ¬ ((parseFileChanges txtDup).countP (fun c => c.filePath == "A.swift") ≤ 1) := by decide

/-- C6 (amended): `parseFileChanges` keeps one operation per well-formed block
in text order, including several operations for the same path.  The last
occurrence wins only in effect: when `applyChanges` applies the parsed list
without throwing, the resulting content at every path is the left fold of the
operations in list order, so a later block for the same path overrides an
earlier one. -/
theorem c6_last_wins_amended (txt : String) (t : Tree) (p : String)
    (h : (applyChanges t (parseFileChanges txt)).2 = true) :
    (applyChanges t (parseFileChanges txt)).1 p =
      (parseFileChanges txt).foldl (changeAt p) (t p) :=
  applyChanges_last_wins (parseFileChanges txt) t p h

theorem c6_last_wins_amended_witness :
    (applyChanges tree0 (parseFileChanges txtDup)).2 = true ∧
    (applyChanges tree0 (parseFileChanges txtDup)).1 "A.swift" =
      (parseFileChanges txtDup).foldl (changeAt "A.swift") (tree0 "A.swift") :=
  ⟨by decide, c6_last_wins_amended txtDup tree0 "A.swift" (by decide)⟩

/- ## Lemmas for the Context Assembler claim -/

theorem takeWhile_append_stop (p : Char → Bool) (l1 : List Char) (x : Char) (l2 : List Char)
    (h1 : ∀ c ∈ l1, p c = true) (hx : p x = false) :
    (l1 ++ x :: l2).takeWhile p = l1 := by
  induction l1 with
  | nil => simp [List.takeWhile, hx]
  | cons c cs ih =>
    have hc : p c = true := h1 c (List.mem_cons_self _ _)
    simp only [List.cons_append, List.takeWhile, hc, List.append_eq]
    rw [ih fun d hd => h1 d (List.mem_cons_of_mem _ hd)]

theorem dropWhile_append_stop (p : Char → Bool) (l1 : List Char) (x : Char) (l2 : List Char)
    (h1 : ∀ c ∈ l1, p c = true) (hx : p x = false) :
    (l1 ++ x :: l2).dropWhile p = x :: l2 := by
  induction l1 with
  | nil => simp [List.dropWhile, hx]
  | cons c cs ih =>
    have hc : p c = true := h1 c (List.mem_cons_self _ _)
    simp only [List.cons_append, List.dropWhile, hc]
    exact ih fun d hd => h1 d (List.mem_cons_of_mem _ hd)

theorem matchTick_occ (mid after : List Char) (hmid : ∀ c ∈ mid, c ≠ '`')
    (hok : tickOk mid = true) :
    matchTick ('`' :: (mid ++ '`' :: after)) = some (mid, after) := by
  have h1 : (mid ++ '`' :: after).takeWhile (fun x => x != '`') = mid :=
    takeWhile_append_stop _ _ _ _ (fun c hc => by simp [hmid c hc]) (by simp)
  have h2 : (mid ++ '`' :: after).dropWhile (fun x => x != '`') = '`' :: after :=
    dropWhile_append_stop _ _ _ _ (fun c hc => by simp [hmid c hc]) (by simp)
  simp [matchTick, h1, h2, hok]

theorem scanTick_cons_no_tick {c : Char} (cs : List Char) (hc : c ≠ '`') (n : Nat) :
    scanTick (n + 1) (c :: cs) = scanTick n cs := by
  have hm : matchTick (c :: cs) = none := by simp [matchTick, hc]
  simp [scanTick, hm]

theorem scanTick_skip (front l : List Char) (h : ∀ c ∈ front, c ≠ '`') :
    scanTick (front ++ l).length (front ++ l) = scanTick l.length l := by
  induction front with
  | nil => simp
  | cons c fr ih =>
    have hc : c ≠ '`' := h c (List.mem_cons_self _ _)
    simp only [List.cons_append, List.length_cons]
    rw [scanTick_cons_no_tick _ hc]
    exact ih fun x hx => h x (List.mem_cons_of_mem _ hx)

theorem mem_insertUnique {acc : List String} {s : String} (x : String) (h : s ∈ acc) :
    s ∈ insertUnique acc x := by
  unfold insertUnique
  split
  · exact h
  · exact List.mem_append_left _ h

theorem mem_pcStep {acc : List String} {s : String} (piece : List Char) (h : s ∈ acc) :
    s ∈ pcStep acc piece := by
  have hz : pcStep acc piece =
      if !(jsTrim (stripLineNum (stripTicks (jsTrim piece)))).isEmpty &&
          allowFinal (jsTrim (stripLineNum (stripTicks (jsTrim piece)))) then
        insertUnique acc (String.mk (jsTrim (stripLineNum (stripTicks (jsTrim piece)))))
      else acc := rfl
  rw [hz]
  split
  · exact mem_insertUnique _ h
  · exact h

theorem mem_processCapture (acc : List String) (t : List Char) (s : String) (h : s ∈ acc) :
    s ∈ processCapture acc t := by
  unfold processCapture
  generalize splitCommaNl t = pieces
  induction pieces generalizing acc with
  | nil => exact h
  | cons pc rest ih =>
    rw [List.foldl_cons]
    exact ih _ (mem_pcStep pc h)

theorem mem_foldl_pc (caps : List (List Char)) (acc : List String) (s : String) (h : s ∈ acc) :
    s ∈ caps.foldl processCapture acc := by
  induction caps generalizing acc with
  | nil => exact h
  | cons cp rest ih =>
    rw [List.foldl_cons]
    exact ih _ (mem_processCapture _ _ _ h)

/-- C4 (amended): when the issue description contains the literal back-ticked
path `src/Foo.swift` (an allow-listed extension) and no back-tick occurs
earlier in the description — so the occurrence's opening back-tick cannot have
been consumed as the closing delimiter of an earlier match — then
`extractFilePaths` returns a list containing `src/Foo.swift` verbatim, with
no trailing punctuation and no `:line` suffix.  (The original claim without
this side condition fails: see the counterexample, where the opening
back-tick of the occurrence is eaten by the preceding match.) -/
theorem c4_context_amended (front back : List Char) (h : ∀ c ∈ front, c ≠ '`') :
    "src/Foo.swift" ∈ extractFilePaths (String.mk (front ++ fooOcc ++ back)) := by
  have hfoo : ∀ c ∈ fooPath, c ≠ '`' := by decide
  have hok : tickOk fooPath = true := by decide
  unfold extractFilePaths
  apply mem_foldl_pc
  apply mem_foldl_pc
  have hD : (String.mk (front ++ fooOcc ++ back)).data = front ++ (fooOcc ++ back) := by
    simp
  rw [hD, scanTick_skip front (fooOcc ++ back) h]
  have hL : fooOcc ++ back = '`' :: (fooPath ++ '`' :: back) := by
    simp [fooOcc]
  rw [hL]
  have hlen : ('`' :: (fooPath ++ '`' :: back)).length = (fooPath ++ '`' :: back).length + 1 :=
    List.length_cons _ _
  rw [hlen]
  have hstep :
      scanTick ((fooPath ++ '`' :: back).length + 1) ('`' :: (fooPath ++ '`' :: back)) =
        fooPath :: scanTick (fooPath ++ '`' :: back).length back := by
    simp [scanTick, matchTick_occ fooPath back hfoo hok]
  rw [hstep, List.foldl_cons]
  apply mem_foldl_pc
  decide

theorem c4_context_amended_witness :
    (∀ c ∈ "see ".data, c ≠ '`') ∧
    "src/Foo.swift" ∈ extractFilePaths (String.mk ("see ".data ++ fooOcc ++ " ok".data)) :=
  ⟨by decide, c4_context_amended "see ".data " ok".data (by decide)⟩

/-- C4 (counterexample): the description `` `a.swift`src/Foo.swift` ``
contains `` `src/Foo.swift` `` literally (the shared middle back-tick opens
it), yet `extractFilePaths` misses it: the back-tick pattern consumes that
back-tick as the closing delimiter of `` `a.swift` `` and the result is just
`["a.swift"]`. -/
theorem c4_context_counterexample :
    containsSub fooOcc cex4.data = true ∧
    extractFilePaths cex4 = ["a.swift"] ∧
    "src/Foo.swift" ∉ extractFilePaths cex4 := by decide

/- ## Lemmas for the orchestrator claims -/

theorem stepLoop_spec (canBuild : Bool) (oracle : Nat → AttemptOutcome) (k : Nat) :
    ∀ (fuel attempt : Nat) (st : RunTrace), attempt + fuel = k + 1 → 1 ≤ fuel →
    (stepLoop canBuild oracle k fuel attempt st).1 ≠ RunOutcome.postLoopThrow ∧
    (stepLoop canBuild oracle k fuel attempt st).2.genCalls ≤ st.genCalls + fuel ∧
    ((∀ n, ∀ ch ∈ (oracle n).changes, ch.action ≠ FAction.delete) →
      (∃ n, (stepLoop canBuild oracle k fuel attempt st).1 = RunOutcome.accepted n) ∨
      (∃ n, (stepLoop canBuild oracle k fuel attempt st).1 = RunOutcome.exhausted n)) := by
  intro fuel
  induction fuel with
  | zero => intro attempt st h1 h2; exact absurd h2 (by decide)
  | succ f ih =>
    intro attempt st h1 h2
    simp only [stepLoop]
    split_ifs with hemp hmax hap hcb hval hlt
    · exact ⟨by simp, by simp, fun _ => Or.inr ⟨attempt, rfl⟩⟩
    · have hf : 1 ≤ f := by omega
      obtain ⟨a, b, c⟩ := ih (attempt + 1)
        ⟨st.tree, st.genCalls + 1, st.valCalls, st.valTrees⟩ (by omega) hf
      exact ⟨a, by simp at b ⊢; omega, c⟩
    · refine ⟨by simp, by simp, fun hnd => ?_⟩
      have hok := applyChanges_ok_of_no_delete (oracle attempt).changes st.tree (hnd attempt)
      rw [hok] at hap
      exact absurd hap (by decide)
    · exact ⟨by simp, by simp, fun _ => Or.inl ⟨attempt, rfl⟩⟩
    · exact ⟨by simp, by simp, fun _ => Or.inl ⟨attempt, rfl⟩⟩
    · have hf : 1 ≤ f := by omega
      obtain ⟨a, b, c⟩ := ih (attempt + 1)
        ⟨(applyChanges st.tree (oracle attempt).changes).1, st.genCalls + 1,
          st.valCalls + 1, st.valTrees ++ [(applyChanges st.tree (oracle attempt).changes).1]⟩
        (by omega) hf
      exact ⟨a, by simp at b ⊢; omega, c⟩
    · exact ⟨by simp, by simp, fun _ => Or.inr ⟨attempt, rfl⟩⟩

theorem stepLoop_valTrees_mono (canBuild : Bool) (oracle : Nat → AttemptOutcome) (k : Nat) :
    ∀ (fuel attempt : Nat) (st : RunTrace),
    ∃ l, (stepLoop canBuild oracle k fuel attempt st).2.valTrees = st.valTrees ++ l := by
  intro fuel
  induction fuel with
  | zero => intro attempt st; exact ⟨[], by simp [stepLoop]⟩
  | succ f ih =>
    intro attempt st
    simp only [stepLoop]
    split_ifs with hemp hmax hap hcb hval hlt
    · exact ⟨[], by simp⟩
    · obtain ⟨l, hl⟩ := ih (attempt + 1) ⟨st.tree, st.genCalls + 1, st.valCalls, st.valTrees⟩
      exact ⟨l, by rw [hl]⟩
    · exact ⟨[], by simp⟩
    · exact ⟨[], by simp⟩
    · exact ⟨[(applyChanges st.tree (oracle attempt).changes).1], rfl⟩
    · obtain ⟨l, hl⟩ := ih (attempt + 1)
        ⟨(applyChanges st.tree (oracle attempt).changes).1, st.genCalls + 1,
          st.valCalls + 1, st.valTrees ++ [(applyChanges st.tree (oracle attempt).changes).1]⟩
      exact ⟨[(applyChanges st.tree (oracle attempt).changes).1] ++ l,
        by rw [hl]; simp⟩
    · exact ⟨[(applyChanges st.tree (oracle attempt).changes).1], rfl⟩

theorem stepLoop_skip_empty (oracle : Nat → AttemptOutcome) (k i : Nat)
    (hik : i ≤ k)
    (hb : ∀ j, 1 ≤ j → j < i → (oracle j).changes = [])
    (hne : (oracle i).changes ≠ []) :
    ∀ (fuel attempt : Nat) (st : RunTrace), attempt + fuel = k + 1 → 1 ≤ attempt →
      attempt ≤ i → (applyChanges st.tree (oracle i).changes).2 = true →
    (stepLoop false oracle k fuel attempt st).1 = RunOutcome.accepted i ∧
    (stepLoop false oracle k fuel attempt st).2.valCalls = st.valCalls ∧
    (stepLoop false oracle k fuel attempt st).2.tree =
      (applyChanges st.tree (oracle i).changes).1 := by
  intro fuel
  induction fuel with
  | zero => intro attempt st h1 h2 h3 h4; omega
  | succ f ih =>
    intro attempt st h1 h2 h3 h4
    by_cases hlt : attempt < i
    · have hemp : (oracle attempt).changes = [] := hb attempt h2 hlt
      have hmax : attempt ≠ k := by omega
      simp only [stepLoop, hemp, if_pos, if_neg hmax, ite_true, eq_self_iff_true]
      exact ih (attempt + 1) ⟨st.tree, st.genCalls + 1, st.valCalls, st.valTrees⟩
        (by omega) (by omega) (by omega) h4
    · have hai : attempt = i := by omega
      subst hai
      simp only [stepLoop, if_neg hne]
      rw [if_neg (by simp [h4])]
      simp

/-- C1 (amended): for every configured budget `maxAttempts = k ≥ 1` and every
sequence of model and validator responses, `implementWithValidation` makes at
most `k` generation model calls and never reaches the post-loop `throw`;
every run terminates either in a result marked `success: true` (Accepted) or
`success: false` (Exhausted), or by propagating the exception thrown when an
applied change set deletes a missing file — and that exception outcome can
arise only from a model response containing a `delete` operation.  (The
original claim — Accepted or Exhausted for every model response — fails: see
the counterexample, where the only model response is a `delete` of an absent
path and the run ends in the propagated `applyChanges` exception.) -/
theorem c1_budget_bound_amended (canBuild : Bool) (oracle : Nat → AttemptOutcome) (k : Nat)
    (t0 : Tree) (hk : 1 ≤ k) :
    (implementWithValidation canBuild oracle k t0).2.genCalls ≤ k ∧
    (implementWithValidation canBuild oracle k t0).1 ≠ RunOutcome.postLoopThrow ∧
    ((∃ n, (implementWithValidation canBuild oracle k t0).1 = RunOutcome.accepted n) ∨
      (∃ n, (implementWithValidation canBuild oracle k t0).1 = RunOutcome.exhausted n) ∨
      (∃ n, (implementWithValidation canBuild oracle k t0).1 = RunOutcome.applyError n)) ∧
    ((∃ n, (implementWithValidation canBuild oracle k t0).1 = RunOutcome.applyError n) →
      ∃ n, ∃ ch ∈ (oracle n).changes, ch.action = FAction.delete) := by
  obtain ⟨a, b, c⟩ := stepLoop_spec canBuild oracle k k 1 ⟨t0, 0, 0, []⟩ (by omega) hk
  have a' : (implementWithValidation canBuild oracle k t0).1 ≠ RunOutcome.postLoopThrow := a
  have b' : (implementWithValidation canBuild oracle k t0).2.genCalls ≤ k := by simpa using b
  have c' : (∀ n, ∀ ch ∈ (oracle n).changes, ch.action ≠ FAction.delete) →
      (∃ n, (implementWithValidation canBuild oracle k t0).1 = RunOutcome.accepted n) ∨
      (∃ n, (implementWithValidation canBuild oracle k t0).1 = RunOutcome.exhausted n) := c
  refine ⟨b', a', ?_, ?_⟩
  · cases hout : (implementWithValidation canBuild oracle k t0).1 with
    | accepted n => exact Or.inl ⟨n, rfl⟩
    | exhausted n => exact Or.inr (Or.inl ⟨n, rfl⟩)
    | applyError n => exact Or.inr (Or.inr ⟨n, rfl⟩)
    | postLoopThrow => exact absurd hout a'
  · rintro ⟨n, hn⟩
    by_contra hno
    push_neg at hno
    rcases c' hno with ⟨m, hm⟩ | ⟨m, hm⟩ <;> rw [hn] at hm <;> exact RunOutcome.noConfusion hm

theorem c1_budget_bound_amended_witness :
    1 ≤ 1 ∧
    ((implementWithValidation false oracleEmpty 1 tree0).2.genCalls ≤ 1 ∧
      (implementWithValidation false oracleEmpty 1 tree0).1 ≠ RunOutcome.postLoopThrow ∧
      ((∃ n, (implementWithValidation false oracleEmpty 1 tree0).1 = RunOutcome.accepted n) ∨
        (∃ n, (implementWithValidation false oracleEmpty 1 tree0).1 = RunOutcome.exhausted n) ∨
        (∃ n, (implementWithValidation false oracleEmpty 1 tree0).1 = RunOutcome.applyError n)) ∧
      ((∃ n, (implementWithValidation false oracleEmpty 1 tree0).1 = RunOutcome.applyError n) →
        ∃ n, ∃ ch ∈ (oracleEmpty n).changes, ch.action = FAction.delete)) :=
  ⟨by decide, c1_budget_bound_amended false oracleEmpty 1 tree0 (by decide)⟩

/-- C1 (counterexample): with `maxAttempts = 1` and a model response whose
change set is a single `delete` of a path absent from the working tree,
`applyChanges` throws (`fs.unlink` on a missing file) and the exception
propagates out of attempt 1 — the run ends in neither an Accepted nor an
Exhausted result, refuting the original claim's termination clause. -/
theorem c1_budget_counterexample :
    (implementWithValidation true oracleDel 1 tree0).1 = RunOutcome.applyError 1 ∧
    ¬ ((∃ n, (implementWithValidation true oracleDel 1 tree0).1 = RunOutcome.accepted n) ∨
      (∃ n, (implementWithValidation true oracleDel 1 tree0).1 = RunOutcome.exhausted n)) := by
  have h1 : (implementWithValidation true oracleDel 1 tree0).1 = RunOutcome.applyError 1 := by
    decide
  refine ⟨h1, ?_⟩
  rintro (⟨n, h⟩ | ⟨n, h⟩) <;> rw [h1] at h <;> exact RunOutcome.noConfusion h

/-- C5: when `xcodebuild` is unavailable (`canBuild = false`) and the first
attempt with a nonempty change set (all earlier attempts being empty) applies
cleanly, the orchestrator applies that change set and returns `success: true`
on that attempt without ever invoking build validation. -/
theorem c5_unavailable_accepts (oracle : Nat → AttemptOutcome) (k i : Nat) (t0 : Tree)
    (hi : 1 ≤ i) (hik : i ≤ k)
    (hb : ∀ j, 1 ≤ j → j < i → (oracle j).changes = [])
    (hne : (oracle i).changes ≠ [])
    (happ : (applyChanges t0 (oracle i).changes).2 = true) :
    (implementWithValidation false oracle k t0).1 = RunOutcome.accepted i ∧
    (implementWithValidation false oracle k t0).2.valCalls = 0 ∧
    (implementWithValidation false oracle k t0).2.tree =
      (applyChanges t0 (oracle i).changes).1 :=
  stepLoop_skip_empty oracle k i hik hb hne k 1 ⟨t0, 0, 0, []⟩ (by omega) (by omega) hi happ

theorem c5_unavailable_accepts_witness :
    (1 ≤ 1 ∧ 1 ≤ 2 ∧ (oracleC5 1).changes ≠ [] ∧
      (applyChanges tree0 (oracleC5 1).changes).2 = true) ∧
    ((implementWithValidation false oracleC5 2 tree0).1 = RunOutcome.accepted 1 ∧
      (implementWithValidation false oracleC5 2 tree0).2.valCalls = 0 ∧
      (implementWithValidation false oracleC5 2 tree0).2.tree =
        (applyChanges tree0 (oracleC5 1).changes).1) :=
  ⟨⟨by decide, by decide, by decide, by decide⟩,
    c5_unavailable_accepts oracleC5 2 1 tree0 (by decide) (by decide)
      (fun j h1 h2 => absurd (Nat.lt_of_lt_of_le h2 h1) (lt_irrefl j))
      (by decide) (by decide)⟩

/-- C2 (amended): the working tree is never reset between attempts.  When
attempt 1 applies a nonempty change set and fails validation and attempt 2
applies a nonempty change set, the tree that attempt 2's validation sees (the
second recorded validation snapshot) is the baseline overlaid with attempt 1's
change set and then attempt 2's change set — a file written by attempt 1 and
not rewritten by attempt 2 keeps attempt 1's content, not its baseline
content. -/
theorem c2_no_reset_amended (oracle : Nat → AttemptOutcome) (k : Nat) (t0 : Tree)
    (hk : 2 ≤ k)
    (h1ne : (oracle 1).changes ≠ [])
    (h1a : (applyChanges t0 (oracle 1).changes).2 = true)
    (h1v : (oracle 1).validation.success = false)
    (h2ne : (oracle 2).changes ≠ [])
    (h2a : (applyChanges (applyChanges t0 (oracle 1).changes).1 (oracle 2).changes).2 = true) :
    ((implementWithValidation true oracle k t0).2.valTrees)[1]? =
      some ((applyChanges (applyChanges t0 (oracle 1).changes).1 (oracle 2).changes).1) := by
  obtain ⟨k2, rfl⟩ : ∃ k2, k = k2 + 2 := ⟨k - 2, by omega⟩
  have hlt1 : (1 : Nat) < k2 + 2 := by omega
  unfold implementWithValidation
  rw [show k2 + 2 = (k2 + 1) + 1 from rfl]
  simp only [stepLoop]
  simp only [h1ne, h1a, h1v, h2ne, h2a, hlt1, ite_true, ite_false, if_neg, if_pos,
    Bool.true_eq_false, Bool.false_eq_true, eq_self_iff_true, not_false_iff,
    List.nil_append, Nat.zero_add, reduceIte]
  by_cases hs : (oracle 2).validation.success = true
  · simp [hs]
  · simp only [hs, reduceIte, Bool.false_eq_true]
    rcases k2 with _ | k3
    · simp
    · have hlt2 : (2 : Nat) < k3 + 1 + 2 := by omega
      simp only [hlt2, reduceIte]
      obtain ⟨l, hl⟩ := stepLoop_valTrees_mono true oracle (k3 + 1 + 2) (k3 + 1) _ _
      rw [hl]
      rw [List.getElem?_append_left (by simp)]
      simp

theorem c2_no_reset_amended_witness :
    (2 ≤ 3 ∧ (oracleC2 1).changes ≠ [] ∧
      (applyChanges treeC2 (oracleC2 1).changes).2 = true ∧
      (oracleC2 1).validation.success = false ∧ (oracleC2 2).changes ≠ [] ∧
      (applyChanges (applyChanges treeC2 (oracleC2 1).changes).1 (oracleC2 2).changes).2 = true) ∧
    ((implementWithValidation true oracleC2 3 treeC2).2.valTrees)[1]? =
      some ((applyChanges (applyChanges treeC2 (oracleC2 1).changes).1 (oracleC2 2).changes).1) :=
  ⟨⟨by decide, by decide, by decide, by decide, by decide, by decide⟩,
    c2_no_reset_amended oracleC2 3 treeC2 (by decide) (by decide) (by decide) (by decide)
      (by decide) (by decide)⟩

/-- C2 (counterexample): baseline holds `A.swift ↦ "base"`; attempt 1 writes
`A.swift ↦ "v1"` and fails validation; attempt 2's change set touches only
`B.swift`.  The tree that attempt 2's validation sees still maps `A.swift` to
`"v1"` — attempt 1's edit, not the baseline content the claim requires. -/
theorem c2_no_reset_counterexample :
    treeC2 "A.swift" = some "base" ∧
    (((implementWithValidation true oracleC2 3 treeC2).2.valTrees)[1]?).map
        (fun t => t "A.swift") = some (some "v1") ∧
    (((implementWithValidation true oracleC2 3 treeC2).2.valTrees)[1]?).map
        (fun t => t "A.swift") ≠ some (some "base") := by decide

/- ## Lemmas for the Publisher claim -/

theorem ghCall_ok {fails : Nat → Bool} {k : Nat} {α : Type} {a b : α}
    (h : ghCall fails k a = .ok b) : b = a := by
  unfold ghCall at h
  split at h
  · exact Except.noConfusion h
  · injection h with h
    exact h.symm

theorem createBlobs_ok {fails : Nat → Bool} :
    ∀ (k : Nat) (files : List GitHubFile) (entries : List (String × String)),
    createBlobs fails k files = .ok entries →
    entries = files.map (fun f => (f.path, f.content)) := by
  intro k files
  induction files generalizing k with
  | nil =>
    intro entries h
    simp only [createBlobs] at h
    injection h with h
    simp [← h]
  | cons f fs ih =>
    intro entries h
    simp only [createBlobs] at h
    cases hg : ghCall fails k f.content with
    | error e => simp [hg] at h
    | ok c =>
      simp only [hg] at h
      cases hb : createBlobs fails (k + 1) fs with
      | error e => simp [hb] at h
      | ok rest =>
        simp only [hb] at h
        injection h with h
        rw [← h, ih (k + 1) rest hb, ghCall_ok hg]
        simp

theorem overlayFiles_cons (t : Tree) (e : String × String) (es : List (String × String)) :
    overlayFiles t (e :: es) = overlayFiles (fun q => if q = e.1 then some e.2 else t q) es := rfl

theorem overlayFiles_lookup_of_not_mem (t : Tree) (entries : List (String × String)) (p : String)
    (h : ∀ e ∈ entries, e.1 ≠ p) : overlayFiles t entries p = t p := by
  induction entries generalizing t with
  | nil => rfl
  | cons e es ih =>
    rw [overlayFiles_cons]
    rw [ih _ fun x hx => h x (List.mem_cons_of_mem _ hx)]
    rw [if_neg fun hq => h e (List.mem_cons_self _ _) hq.symm]

theorem overlay_map_lookup (files : List GitHubFile) (t : Tree)
    (hnd : (files.map GitHubFile.path).Nodup) :
    ∀ f ∈ files, overlayFiles t (files.map fun f => (f.path, f.content)) f.path = some f.content := by
  induction files generalizing t with
  | nil => intro f hf; cases hf
  | cons g gs ih =>
    intro f hf
    rw [List.map_cons, overlayFiles_cons]
    rw [List.map_cons, List.nodup_cons] at hnd
    rcases List.mem_cons.mp hf with rfl | hf'
    · have hnm : ∀ e ∈ gs.map (fun f => (f.path, f.content)), e.1 ≠ f.path := by
        intro e he hEq
        obtain ⟨f', hf', rfl⟩ := List.mem_map.mp he
        exact hnd.1 (hEq ▸ List.mem_map_of_mem _ hf')
      rw [overlayFiles_lookup_of_not_mem _ _ _ hnm]
      simp
    · exact ih _ hnd.2 f hf'

theorem commitFiles_ok {st : GHState} {files : List GitHubFile} {fails : Nat → Bool}
    {st' : GHState} (h : commitFiles st files fails = .ok st') :
    st'.head = overlayFiles st.head (files.map fun f => (f.path, f.content)) := by
  unfold commitFiles at h
  cases h0 : ghCall fails 0 () with
  | error e => simp [h0] at h
  | ok u =>
    simp only [h0] at h
    cases h1 : ghCall fails 1 st.head with
    | error e => simp [h1] at h
    | ok baseTree =>
      simp only [h1] at h
      obtain rfl : baseTree = st.head := ghCall_ok h1
      cases h2 : createBlobs fails 2 files with
      | error e => simp [h2] at h
      | ok entries =>
        simp only [h2] at h
        obtain rfl : entries = files.map fun f => (f.path, f.content) :=
          createBlobs_ok 2 files entries h2
        cases h3 : ghCall fails (2 + files.length)
            (overlayFiles st.head (files.map fun f => (f.path, f.content))) with
        | error e => simp [h3] at h
        | ok newTree =>
          simp only [h3] at h
          obtain rfl : newTree = _ := ghCall_ok h3
          cases h4 : ghCall fails (3 + files.length)
              (overlayFiles st.head (files.map fun f => (f.path, f.content))) with
          | error e => simp [h4] at h
          | ok newCommit =>
            simp only [h4] at h
            obtain rfl : newCommit = _ := ghCall_ok h4
            rw [ghCall_ok h]

/-- C3: `commitFiles` is atomic for every change set (in particular those of
size ≥ 2, with one entry per path): either every API call succeeds and the
branch head advances to a commit whose tree holds every file of the change
set at its new content, or some injected call failure makes the whole publish
throw and the branch head is unchanged — no reachable final state exposes a
strict subset of the new contents. -/
theorem c3_atomic_commit (st : GHState) (files : List GitHubFile) (fails : Nat → Bool)
    (hlen : 2 ≤ files.length) (hnd : (files.map GitHubFile.path).Nodup) :
    ((∃ e, commitFiles st files fails = Except.error e) ∧
      commitFilesFinal st files fails = st) ∨
    (commitFiles st files fails = Except.ok (commitFilesFinal st files fails) ∧
      ∀ f ∈ files, (commitFilesFinal st files fails).head f.path = some f.content) := by
  cases h : commitFiles st files fails with
  | error e =>
    exact Or.inl ⟨⟨e, rfl⟩, by simp [commitFilesFinal, h]⟩
  | ok st' =>
    right
    have hfin : commitFilesFinal st files fails = st' := by simp [commitFilesFinal, h]
    refine ⟨by rw [hfin], ?_⟩
    rw [hfin]
    intro f hf
    rw [commitFiles_ok h]
    exact overlay_map_lookup files st.head hnd f hf

theorem c3_atomic_commit_witness :
    (2 ≤ ghFilesW.length ∧ (ghFilesW.map GitHubFile.path).Nodup) ∧
    (((∃ e, commitFiles ghState0 ghFilesW (fun _ => false) = Except.error e) ∧
        commitFilesFinal ghState0 ghFilesW (fun _ => false) = ghState0) ∨
      (commitFiles ghState0 ghFilesW (fun _ => false) =
          Except.ok (commitFilesFinal ghState0 ghFilesW (fun _ => false)) ∧
        ∀ f ∈ ghFilesW,
          (commitFilesFinal ghState0 ghFilesW (fun _ => false)).head f.path = some f.content)) :=
  ⟨⟨by decide, by decide⟩,
    c3_atomic_commit ghState0 ghFilesW (fun _ => false) (by decide) (by decide)⟩

end LDA
